import Mathlib

/-!
Verification development for the mirrored buffer-cache header
(src/buffer_cache/mirrored/mirrored.hpp) and the cross-thread message hub
scheduler (the message_hub implementation bundled with the same header).

The message hub scheduler is embedded from the code: the per-thread
priority queues are a finite map from priority index to FIFO list, one
scheduling pass processes up to max(1, effective_granularity >> exponent)
messages from each priority (highest first), and the outer do/while loop of
on_event repeats until every message counted at wake-up has been delivered.
Priorities are normalised to indices 0 .. N-1 (the code indexes its array by
priority - MESSAGE_SCHEDULER_MIN_PRIORITY in exactly this way), so index
N-1 plays the role of MESSAGE_SCHEDULER_MAX_PRIORITY and the exponent
MESSAGE_SCHEDULER_MAX_PRIORITY - current_priority becomes N - 1 - k.
Release (NDEBUG) semantics is embedded: the debug-only reloop_count_
re-enqueueing is compiled out in release builds and is not modelled.

Bodies that the header only declares (get_snapshot_data, the mc_buf_t
constructor, the snapshot release path, safe_to_unload, the writeback
sync-notification path) are modelled from the spec; each such definition
carries a doc comment beginning with the words Modelled from the spec.
-/

/-! ## Message hub: data model -/

/-- A cross-thread message as the hub sees it: an identifier, the priority
field of linux_thread_message_t, and the is_ordered flag set by
store_message_ordered.  Priorities are normalised to indices 0 .. N-1. -/
structure LinuxThreadMessage (N : Nat) : Type where
  msgId : Nat
  priority : Fin N
  is_ordered : Bool
deriving DecidableEq

/-- Scheduler state of one hub: the per-priority FIFO lists
(priority_msg_lists_), the counters num_initial_msgs_left_to_process, and
the sequence of messages delivered so far (each paired with the priority
list it was taken from), in the order their on_thread_switch ran. -/
structure HubState (N : Nat) (α : Type) : Type where
  lists : Fin N → List α
  initLeft : Fin N → Nat
  delivered : List (Fin N × α)

/-- Messages delivered from priority list p, in delivery order. -/
def deliveredAt {N : Nat} {α : Type} (p : Fin N) (d : List (Fin N × α)) : List α :=
  (d.filter fun x => x.1 == p).map Prod.snd

/-- Embeds store_message_ordered (message_hub.cc): sets is_ordered on the
message and appends it to the target thread's local FIFO list
(do_store_message does push_back). -/
def store_message_ordered {N : Nat} (msg : LinuxThreadMessage N)
    (localList : List (LinuxThreadMessage N)) : List (LinuxThreadMessage N) :=
  localList ++ [{ msg with is_ordered := true }]

/-- The effective priority computed by sort_incoming_messages_by_priority:
ordered messages are treated as if they had priority
MESSAGE_SCHEDULER_ORDERED_PRIORITY (here the index orderedP), all others
keep their own priority field. -/
def effective_priority {N : Nat} (orderedP : Fin N) (m : LinuxThreadMessage N) : Fin N :=
  if m.is_ordered then orderedP else m.priority

/-- The is_ordered reset performed by sort_incoming_messages_by_priority
once a message has been assigned its effective priority. -/
def clearOrdered {N : Nat} (m : LinuxThreadMessage N) : LinuxThreadMessage N :=
  { m with is_ordered := false }

/-- Embeds sort_incoming_messages_by_priority (message_hub.cc): each pulled
incoming message is appended (push_back) to the priority list selected by
its effective priority, with the is_ordered flag reset. -/
def sort_incoming_messages_by_priority {N : Nat} (orderedP : Fin N)
    (incoming : List (LinuxThreadMessage N))
    (lists : Fin N → List (LinuxThreadMessage N)) : Fin N → List (LinuxThreadMessage N) :=
  incoming.foldl
    (fun ls m =>
      Function.update ls (effective_priority orderedP m)
        (ls (effective_priority orderedP m) ++ [clearOrdered m]))
    lists

/-! ## Message hub: the on_event scheduler -/

/-- Embeds the inner for-loop of on_event at one priority: it removes the
head of the list, decrements the quota, decrements the initial-message
counter when it is still positive, and delivers the message, stopping when
the list is empty or the quota is exhausted.  Returns (delivered messages
in order, remaining list, remaining initial-message counter). -/
def processMsgs {α : Type} : Nat → List α → Nat → List α × List α × Nat
  | _, [], c => ([], [], c)
  | 0, m :: ms, c => ([], m :: ms, c)
  | q + 1, m :: ms, c =>
    let r := processMsgs q ms (c - 1)
    (m :: r.1, r.2.1, r.2.2)

/-- The per-priority quota of on_event:
to_process_from_priority = max(1ul, effective_granularity >> priority_exponent)
where priority_exponent = MESSAGE_SCHEDULER_MAX_PRIORITY - current_priority,
i.e. N - 1 - k for the normalised index k. -/
def toProcessFromPriority (N g k : Nat) : Nat :=
  max 1 (g >>> (N - 1 - k))

/-- Embeds the middle for-loop of on_event: priorities are visited from
MESSAGE_SCHEDULER_MAX_PRIORITY down to MESSAGE_SCHEDULER_MIN_PRIORITY
(indices k-1 down to 0), each processing up to its quota of messages. -/
def passFrom {N : Nat} {α : Type} (g : Nat) : Nat → HubState N α → HubState N α
  | 0, s => s
  | k + 1, s =>
    if h : k < N then
      let p : Fin N := ⟨k, h⟩
      let r := processMsgs (toProcessFromPriority N g k) (s.lists p) (s.initLeft p)
      passFrom g k
        { lists := Function.update s.lists p r.2.1
          initLeft := Function.update s.initLeft p r.2.2
          delivered := s.delivered ++ r.1.map (fun m => (p, m)) }
    else passFrom g k s

/-- The total_pending_msgs accumulation of on_event: the summed length of
all priority lists. -/
def totalPendingMsgs {N : Nat} {α : Type} (lists : Fin N → List α) : Nat :=
  Finset.sum Finset.univ fun p => (lists p).length

/-- The effective_granularity of on_event:
min(total_pending_msgs, MESSAGE_SCHEDULER_GRANULARITY), with the
granularity constant G passed as a parameter (config/args.hpp is not part
of this source bundle). -/
def effectiveGranularity {N : Nat} {α : Type} (G : Nat) (lists : Fin N → List α) : Nat :=
  min (totalPendingMsgs lists) G

/-- One complete scheduling pass of on_event over all priorities, with the
granularity computed from the current lists. -/
def schedulerPass {N : Nat} {α : Type} (G : Nat) (s : HubState N α) : HubState N α :=
  passFrom (effectiveGranularity G s.lists) N s

/-- Embeds the do/while loop of on_event.  After each pass the loop stops
iff every num_initial_msgs_left_to_process counter is zero; otherwise it
picks up newly arrived messages (deliver_local_messages followed by
sort_incoming_messages_by_priority append at the back of each list,
abstracted as the batch arrivals n) and runs another pass.  The fuel
argument bounds the number of passes; the theorems show that a fuel larger
than the initial message count always suffices. -/
def on_event_loop {N : Nat} {α : Type} (G : Nat) (arrivals : Nat → Fin N → List α) :
    Nat → Nat → HubState N α → HubState N α
  | 0, _, s => s
  | fuel + 1, n, s =>
    if ∀ p, (schedulerPass G s).initLeft p = 0 then schedulerPass G s
    else
      on_event_loop G arrivals fuel (n + 1)
        { schedulerPass G s with
          lists := fun p => (schedulerPass G s).lists p ++ arrivals n p }

/-- Embeds on_event (message_hub.cc): the initial counters are set to the
sizes of the priority lists as found at wake-up (after the first
sort_incoming_messages_by_priority), and the pass loop runs until the
whole initial batch has been processed. -/
def on_event {N : Nat} {α : Type} (G : Nat) (arrivals : Nat → Fin N → List α)
    (fuel : Nat) (lists0 : Fin N → List α) : HubState N α :=
  on_event_loop G arrivals fuel 0
    { lists := lists0, initLeft := fun p => (lists0 p).length, delivered := [] }

/-- The messages appended to priority list p by the arrival batches
n, n+1, ..., n+j-1 (the batches consumed by j further loop iterations). -/
def consumedBatches {N : Nat} {α : Type} (arrivals : Nat → Fin N → List α)
    (p : Fin N) : Nat → Nat → List α
  | _, 0 => []
  | n, j + 1 => arrivals n p ++ consumedBatches arrivals p (n + 1) j

/-- Invariant carried through the on_event loop: each
num_initial_msgs_left_to_process counter is bounded by its list's length,
and the initial content of each priority list is recovered as the already
delivered messages of that priority followed by the first initLeft p
elements still queued. -/
def HubInv {N : Nat} {α : Type} (lists0 : Fin N → List α) (s : HubState N α) : Prop :=
  ∀ p, s.initLeft p ≤ (s.lists p).length ∧
    lists0 p <+: deliveredAt p s.delivered ++ (s.lists p).take (s.initLeft p)

/-! ## Inner buffer, snapshots, acquisition -/

/-- Embeds mc_inner_buf_t::buf_snapshot_info_t (mirrored.hpp:96-103): a
frozen copy of the block data, the version it was frozen at, and the
number of outstanding references to it.  Block data is abstracted to a
natural number standing for the pointed-to contents. -/
structure BufSnapshotInfo : Type where
  data : Nat
  snapshotted_version : Nat
  refcount : Nat
deriving DecidableEq

/-- Embeds the fields of mc_inner_buf_t (mirrored.hpp:41-114) that the
claims quantify over: live data and version, the acquisition refcount, the
deletion and copy-on-write flags, the dirty bit owned by
writeback_t::local_buf_t, idleness of the rwi_lock_t, and the snapshot
list (newest snapshot last). -/
structure InnerBuf : Type where
  data : Nat
  version_id : Nat
  refcount : Nat
  do_delete : Bool
  cow_will_be_needed : Bool
  dirty : Bool
  lockIdle : Bool
  snapshots : List BufSnapshotInfo
deriving DecidableEq

/-- Modelled from the spec: the header declares
mc_inner_buf_t::get_snapshot_data (mirrored.hpp:109) without a body.
Spec §4.3 step 2 reads: search snapshots for the largest
snapshotted_version ≤ version_to_see.  The definition selects, among the
snapshot records whose version is at most version_to_access, one with the
largest snapshotted_version. -/
def get_snapshot_data (snapshots : List BufSnapshotInfo) (version_to_access : Nat) :
    Option BufSnapshotInfo :=
  (snapshots.filter fun s => decide (s.snapshotted_version ≤ version_to_access)).argmax
    fun s => s.snapshotted_version

/-- The refcount bump performed on the snapshot record selected for a
read-outdated-OK acquisition: the record holding version v gains one
reference. -/
def bumpSnapshotRefcount (snapshots : List BufSnapshotInfo) (v : Nat) :
    List BufSnapshotInfo :=
  snapshots.map fun s =>
    if s.snapshotted_version = v then { s with refcount := s.refcount + 1 } else s

/-- Modelled from the spec: the header declares
mc_inner_buf_t::release_snapshot (mirrored.hpp:110) without a body.
Spec §4.6: each release decrements a snapshot refcount; reaching zero
frees that snapshot record. -/
def releaseSnapshotRecord (snapshots : List BufSnapshotInfo) (v : Nat) :
    List BufSnapshotInfo :=
  snapshots.filterMap fun s =>
    if s.snapshotted_version = v then
      if s.refcount ≤ 1 then none else some { s with refcount := s.refcount - 1 }
    else some s

/-- Outcome of one block acquisition: the data pointer handed to the
mc_buf_t, the version that data carries, the non_locking_access flag
(true exactly on the read-outdated-OK snapshot path), and the updated
inner buffer. -/
structure AcquisitionResult : Type where
  data : Nat
  dataVersion : Nat
  non_locking_access : Bool
  buf : InnerBuf
deriving DecidableEq

/-- Modelled from the spec: the body of the mc_buf_t constructor
(mirrored.hpp:126) is not in the header.  Spec §4.3: if snapshotted and a
newer version_id than version_to_see exists on live data, search snapshots
for the largest snapshotted_version ≤ version_to_see, bump its refcount
and return that data pointer with no lock (read-outdated-OK); otherwise
take the lock path and hand out the live data (the refcount of the inner
buffer counts this mc_buf_t). -/
def acquire_block (buf : InnerBuf) (snapshotted : Bool) (version_to_see : Nat) :
    Option AcquisitionResult :=
  if snapshotted ∧ version_to_see < buf.version_id then
    match get_snapshot_data buf.snapshots version_to_see with
    | some s =>
        some { data := s.data
               dataVersion := s.snapshotted_version
               non_locking_access := true
               buf := { buf with
                        snapshots := bumpSnapshotRefcount buf.snapshots s.snapshotted_version } }
    | none => none
  else
    some { data := buf.data
           dataVersion := buf.version_id
           non_locking_access := false
           buf := { buf with refcount := buf.refcount + 1 } }

/-- The version history of a block as held by its inner buffer: every
snapshot record's (version, data) pair followed by the live
(version_id, data) pair. -/
def versionHistory (buf : InnerBuf) : List (Nat × Nat) :=
  (buf.snapshots.map fun s => (s.snapshotted_version, s.data)) ++
    [(buf.version_id, buf.data)]

/-- Modelled from the spec: the bodies of mc_inner_buf_t::snapshot and of
the mutation paths are not in the header.  The transitions an inner buffer
undergoes, per spec §4.3 and §4.6: a copy-on-write freeze (the current
data becomes a snapshot record carrying the old version_id with at least
one reference, the live version advances), a plain mutation (version
advances), a refcount bump on a snapshot record made by a
read-outdated-OK acquisition, and a snapshot release (decrement, freeing
the record when the count reaches zero). -/
inductive BufStep : InnerBuf → InnerBuf → Prop
  | cow (b : InnerBuf) (newData w r : Nat) (hw : b.version_id < w) (hr : 1 ≤ r) :
      BufStep b
        { b with data := newData, version_id := w,
                 snapshots := b.snapshots ++
                   [{ data := b.data, snapshotted_version := b.version_id, refcount := r }] }
  | write (b : InnerBuf) (newData w : Nat) (hw : b.version_id < w) :
      BufStep b { b with data := newData, version_id := w }
  | acquireSnap (b : InnerBuf) (v : Nat) :
      BufStep b { b with snapshots := bumpSnapshotRefcount b.snapshots v }
  | releaseSnap (b : InnerBuf) (v : Nat) :
      BufStep b { b with snapshots := releaseSnapshotRecord b.snapshots v }

/-- The snapshot-record invariant of spec §3: every snapshot record holds a
version strictly below the live version_id and at least one reference. -/
def SnapInv (b : InnerBuf) : Prop :=
  ∀ s ∈ b.snapshots, s.snapshotted_version < b.version_id ∧ 1 ≤ s.refcount

/-- Modelled from the spec: the header declares
mc_inner_buf_t::safe_to_unload (mirrored.hpp:86) without a body.  Spec §3:
refcount == 0 and snapshots.empty() and not dirty and lock.idle implies
safe to evict. -/
def safe_to_unload (b : InnerBuf) : Bool :=
  b.refcount == 0 && b.snapshots.isEmpty && !b.dirty && b.lockIdle

/-! ## Cache-wide snapshot map -/

/-- The std::map of mc_cache_t::active_snapshots (mirrored.hpp:341-342),
embedded as an association list sorted strictly by key (version_id to
transaction id); begin() is the head, rbegin() the last element. -/
def StrictKeySorted (m : List (Nat × Nat)) : Prop :=
  List.Pairwise (fun a b => a.1 < b.1) m

/-- Embeds mc_cache_t::no_active_snapshots (mirrored.hpp:312):
active_snapshots.empty(). -/
def no_active_snapshots (m : List (Nat × Nat)) : Bool :=
  m.isEmpty

/-- Embeds mc_cache_t::get_min_snapshot_version (mirrored.hpp:305-307):
no_active_snapshots() ? default_version : (*active_snapshots.begin()).first,
with begin() the head of the sorted association list. -/
def get_min_snapshot_version (m : List (Nat × Nat)) (default_version : Nat) : Nat :=
  match m.head? with
  | none => default_version
  | some kv => kv.1

/-- Embeds mc_cache_t::get_max_snapshot_version (mirrored.hpp:309-311):
no_active_snapshots() ? default_version : (*active_snapshots.rbegin()).first,
with rbegin() the last element of the sorted association list. -/
def get_max_snapshot_version (m : List (Nat × Nat)) (default_version : Nat) : Nat :=
  match m.getLast? with
  | none => default_version
  | some kv => kv.1

/-- std::map::lower_bound on the sorted association list: the iterator
(suffix) at the first entry whose key is not below k. -/
def lower_bound (m : List (Nat × Nat)) (k : Nat) : List (Nat × Nat) :=
  m.dropWhile fun kv => decide (kv.1 < k)

/-- std::map::upper_bound on the sorted association list: the iterator
(suffix) at the first entry whose key is above k. -/
def upper_bound (m : List (Nat × Nat)) (k : Nat) : List (Nat × Nat) :=
  m.dropWhile fun kv => decide (kv.1 ≤ k)

/-- Embeds the two-argument mc_cache_t::no_active_snapshots
(mirrored.hpp:313-315):
active_snapshots.lower_bound(from_version) == active_snapshots.upper_bound(to_version).
Two iterators into the same container are equal iff they sit at the same
position, i.e. iff the suffixes agree. -/
def no_active_snapshots_in_range (m : List (Nat × Nat))
    (from_version to_version : Nat) : Bool :=
  decide (lower_bound m from_version = upper_bound m to_version)

/-! ## Writeback commit notification -/

/-- Events the writeback sees, per spec §4.6: a transaction's commit
request entering the writeback (entry into the committing state), and the
completion of a flush pass. -/
inductive WbEvent : Type
  | enter (txn : Nat) : WbEvent
  | flush : WbEvent
deriving DecidableEq

/-- Writeback bookkeeping: the FIFO of transactions whose commit requests
have entered the writeback and are awaiting a flush, and the sequence of
transactions already notified through their sync-callback (on_sync), in
notification order. -/
structure WbState : Type where
  committing : List Nat
  notified : List Nat
deriving DecidableEq

/-- Modelled from the spec: mc_transaction_t::on_sync (mirrored.hpp:228)
and the writeback internals are only declared in the header.  Spec §4.6
step 5: notify committed transactions via their sync-callback in the order
their commit requests entered writeback (FIFO).  An enter event appends to the
committing FIFO; a flush completion fires on_sync for the queued
transactions in queue order. -/
def wbStep (s : WbState) (e : WbEvent) : WbState :=
  match e with
  | .enter t => { s with committing := s.committing ++ [t] }
  | .flush => { committing := [], notified := s.notified ++ s.committing }

/-- Runs the writeback from an empty state over a sequence of events. -/
def wbRun (evs : List WbEvent) : WbState :=
  evs.foldl wbStep { committing := [], notified := [] }

/-- The transactions whose commit requests entered the writeback during an
event sequence, in entry order. -/
def wbEntered (evs : List WbEvent) : List Nat :=
  evs.filterMap fun e =>
    match e with
    | .enter t => some t
    | .flush => none

/-! ## Concrete instances used to evaluate the theorems -/

/-- A freshly constructed inner buffer with no snapshots. -/
def exampleBuf0 : InnerBuf :=
  { data := 30, version_id := 3, refcount := 0, do_delete := false,
    cow_will_be_needed := false, dirty := false, lockIdle := true, snapshots := [] }

/-- An inner buffer carrying two snapshot records (versions 1 and 2) under
a live version 3. -/
def exampleBuf : InnerBuf :=
  { data := 30, version_id := 3, refcount := 0, do_delete := false,
    cow_will_be_needed := false, dirty := false, lockIdle := true,
    snapshots := [{ data := 10, snapshotted_version := 1, refcount := 1 },
                  { data := 20, snapshotted_version := 2, refcount := 1 }] }

/-- Concrete priority lists for a three-level scheduler: five messages at
the top priority, two one level below, none at the bottom. -/
def exampleLists : Fin 3 → List Nat :=
  fun p => if p.val = 2 then [100, 101, 102, 103, 104]
           else if p.val = 1 then [200, 201] else []

/-- The hub state at wake-up over exampleLists, counters set to the list
sizes, nothing delivered yet. -/
def exampleHub : HubState 3 Nat :=
  { lists := exampleLists, initLeft := fun p => (exampleLists p).length, delivered := [] }

/-- A concrete sorted active_snapshots association list. -/
def exampleMap : List (Nat × Nat) :=
  [(2, 10), (5, 11), (9, 12)]

/-! ## Theorems: claims C5, C6, C8, C9 -/

theorem wbRun_foldl (evs : List WbEvent) : ∀ s : WbState,
    (evs.foldl wbStep s).notified ++ (evs.foldl wbStep s).committing =
      s.notified ++ s.committing ++ wbEntered evs := by
  induction evs with
  | nil => intro s; simp [wbEntered]
  | cons e evs ih =>
    intro s
    cases e with
    | enter t =>
      simp only [List.foldl_cons, wbStep, wbEntered, List.filterMap_cons]
      rw [ih]
      simp [wbEntered, List.append_assoc]
    | flush =>
      simp only [List.foldl_cons, wbStep, wbEntered, List.filterMap_cons]
      rw [ih]
      simp [wbEntered, List.append_assoc]

/-- Claim C5: the order in which the writeback fires commit notifications
(the on_sync callbacks) equals the order in which the transactions' commit
requests entered the writeback: after any event sequence the notified
transactions followed by the still-queued ones are exactly the entered
transactions in entry order, so the notification sequence is a FIFO
prefix of the entry sequence. -/
theorem writeback_commit_notification_fifo (evs : List WbEvent) :
    (wbRun evs).notified ++ (wbRun evs).committing = wbEntered evs ∧
    (wbRun evs).notified <+: wbEntered evs := by
  have h := wbRun_foldl evs { committing := [], notified := [] }
  simp only [wbRun] at *
  refine ⟨by simpa using h, ?_⟩
  exact ⟨(evs.foldl wbStep { committing := [], notified := [] }).committing, by simpa using h⟩

theorem sorted_getLast_max (m : List (Nat × Nat)) (hs : StrictKeySorted m) (hne : m ≠ []) :
    ∃ kv, m.getLast? = some kv ∧ kv ∈ m ∧ ∀ k ∈ m, k.1 ≤ kv.1 := by
  induction m with
  | nil => exact absurd rfl hne
  | cons a rest ih =>
    rw [StrictKeySorted, List.pairwise_cons] at hs
    cases rest with
    | nil =>
      refine ⟨a, rfl, List.mem_singleton.mpr rfl, ?_⟩
      intro k hk
      rcases List.mem_singleton.mp hk with rfl
      exact le_refl _
    | cons b rest2 =>
      obtain ⟨kv, h1, h2, h3⟩ := ih hs.2 (by simp)
      refine ⟨kv, ?_, List.mem_cons_of_mem _ h2, ?_⟩
      · rw [List.getLast?_cons_cons]; exact h1
      · intro k hk
        rcases List.mem_cons.mp hk with rfl | hk2
        · exact le_of_lt (hs.1 kv h2)
        · exact h3 k hk2

/-- Claim C6: get_min_snapshot_version returns the smallest version key of
the ordered active_snapshots map when a snapshot is registered and the
default otherwise, and get_max_snapshot_version symmetrically returns the
largest key or the default; both read only the first/last element of the
map. -/
theorem cache_min_max_snapshot_version (m : List (Nat × Nat)) (d : Nat)
    (hs : StrictKeySorted m) :
    (no_active_snapshots m = true →
      get_min_snapshot_version m d = d ∧ get_max_snapshot_version m d = d) ∧
    (no_active_snapshots m = false →
      get_min_snapshot_version m d ∈ m.map Prod.fst ∧
      (∀ k ∈ m.map Prod.fst, get_min_snapshot_version m d ≤ k) ∧
      get_max_snapshot_version m d ∈ m.map Prod.fst ∧
      (∀ k ∈ m.map Prod.fst, k ≤ get_max_snapshot_version m d)) := by
  constructor
  · intro h
    have hm : m = [] := by simpa [no_active_snapshots, List.isEmpty_iff] using h
    subst hm
    exact ⟨rfl, rfl⟩
  · intro h
    have hne : m ≠ [] := by simpa [no_active_snapshots] using h
    obtain ⟨kv, h1, h2, h3⟩ := sorted_getLast_max m hs hne
    have hmax1 : get_max_snapshot_version m d = kv.1 := by
      rw [get_max_snapshot_version, h1]
    cases m with
    | nil => exact absurd rfl hne
    | cons a rest =>
      rw [StrictKeySorted, List.pairwise_cons] at hs
      refine ⟨?_, ?_, ?_, ?_⟩
      · simp [get_min_snapshot_version]
      · intro k hk
        obtain ⟨x, hx, rfl⟩ := List.mem_map.mp hk
        rcases List.mem_cons.mp hx with rfl | hx2
        · simp [get_min_snapshot_version]
        · simpa [get_min_snapshot_version] using le_of_lt (hs.1 x hx2)
      · rw [hmax1]
        exact List.mem_map.mpr ⟨kv, h2, rfl⟩
      · intro k hk
        obtain ⟨x, hx, rfl⟩ := List.mem_map.mp hk
        rw [hmax1]
        exact h3 x hx

/-- Claim C8: an inner buffer with refcount zero, an empty snapshot list,
a clean dirty bit and an idle lock reports safe_to_unload, i.e. may be
evicted. -/
theorem safe_to_unload_of_idle (b : InnerBuf) (h1 : b.refcount = 0)
    (h2 : b.snapshots = []) (h3 : b.dirty = false) (h4 : b.lockIdle = true) :
    safe_to_unload b = true := by
  simp [safe_to_unload, h1, h2, h3, h4]

/-- Claim C9: for from_version ≤ to_version, the two-argument
no_active_snapshots interval check, implemented as
lower_bound(from_version) == upper_bound(to_version) on the ordered map,
returns true iff no registered snapshot version lies in the closed
interval. -/
theorem no_active_snapshots_in_range_spec (m : List (Nat × Nat))
    (from_version to_version : Nat) (hs : StrictKeySorted m)
    (hft : from_version ≤ to_version) :
    no_active_snapshots_in_range m from_version to_version = true ↔
      ∀ k ∈ m.map Prod.fst, ¬(from_version ≤ k ∧ k ≤ to_version) := by
  induction m with
  | nil => simp [no_active_snapshots_in_range, lower_bound, upper_bound]
  | cons kv rest ih =>
    rw [StrictKeySorted, List.pairwise_cons] at hs
    have ihr := ih hs.2
    by_cases h1 : kv.1 < from_version
    · have h2 : kv.1 ≤ to_version := le_trans h1.le hft
      have hred : no_active_snapshots_in_range (kv :: rest) from_version to_version =
          no_active_snapshots_in_range rest from_version to_version := by
        unfold no_active_snapshots_in_range lower_bound upper_bound
        rw [List.dropWhile_cons_of_pos (by simpa using h1),
            List.dropWhile_cons_of_pos (by simpa using h2)]
      rw [hred, ihr]
      simp only [List.map_cons, List.mem_cons]
      constructor
      · intro hA k hk
        rcases hk with rfl | hk
        · intro hc; omega
        · exact hA k hk
      · intro hA k hk
        exact hA k (Or.inr hk)
    · by_cases h2 : kv.1 ≤ to_version
      · apply iff_of_false
        · unfold no_active_snapshots_in_range lower_bound upper_bound
          rw [List.dropWhile_cons_of_neg (by simpa using h1),
              List.dropWhile_cons_of_pos (by simpa using h2)]
          simp only [decide_eq_true_eq]
          intro heq
          have hlen : (rest.dropWhile fun x => decide (x.1 ≤ to_version)).length ≤ rest.length :=
            (List.dropWhile_sublist _).length_le
          rw [← heq] at hlen
          simp at hlen
        · intro hA
          exact hA kv.1 (by simp) ⟨not_lt.mp h1, h2⟩
      · apply iff_of_true
        · unfold no_active_snapshots_in_range lower_bound upper_bound
          rw [List.dropWhile_cons_of_neg (by simpa using h1),
              List.dropWhile_cons_of_neg (by simpa using h2)]
          simp
        · intro k hk
          simp only [List.map_cons, List.mem_cons] at hk
          rcases hk with rfl | hk
          · intro hc; omega
          · obtain ⟨x, hx, rfl⟩ := List.mem_map.mp hk
            have hlt := hs.1 x hx
            intro hc; omega

/-! ## Theorems: snapshot selection and acquisition (claim C1) -/

theorem get_snapshot_data_mem {snaps : List BufSnapshotInfo} {v : Nat} {s : BufSnapshotInfo}
    (h : get_snapshot_data snaps v = some s) :
    s ∈ snaps ∧ s.snapshotted_version ≤ v := by
  unfold get_snapshot_data at h
  have hmem : s ∈ snaps.filter fun t => decide (t.snapshotted_version ≤ v) :=
    List.argmax_mem (Option.mem_def.mpr h)
  have hf := List.mem_filter.mp hmem
  exact ⟨hf.1, by simpa using hf.2⟩

theorem get_snapshot_data_is_max {snaps : List BufSnapshotInfo} {v : Nat} {s : BufSnapshotInfo}
    (h : get_snapshot_data snaps v = some s) :
    ∀ t ∈ snaps, t.snapshotted_version ≤ v → t.snapshotted_version ≤ s.snapshotted_version := by
  intro t ht htv
  unfold get_snapshot_data at h
  exact List.le_of_mem_argmax (List.mem_filter.mpr ⟨ht, by simpa using htv⟩)
    (Option.mem_def.mpr h)

theorem get_snapshot_data_none {snaps : List BufSnapshotInfo} {v : Nat}
    (h : get_snapshot_data snaps v = none) :
    ∀ t ∈ snaps, v < t.snapshotted_version := by
  unfold get_snapshot_data at h
  rw [List.argmax_eq_none, List.filter_eq_nil_iff] at h
  intro t ht
  have ha := h t ht
  have : ¬ t.snapshotted_version ≤ v := by simpa using ha
  omega

/-- Claim C1: for a snapshotted transaction carrying snapshot_version v,
an acquisition of a block returns data whose version is the largest
version w ≤ v in the block's version history; when the live data's version
exceeds v, the snapshot record with the largest snapshotted_version ≤ v is
selected, its refcount incremented, and its data pointer returned without
taking the lock. -/
theorem snapshotted_acquire_sees_max_version (buf : InnerBuf) (v : Nat)
    (hwf : ∀ s ∈ buf.snapshots, s.snapshotted_version < buf.version_id)
    (hsome : buf.version_id ≤ v ∨ ∃ s ∈ buf.snapshots, s.snapshotted_version ≤ v) :
    ∃ r, acquire_block buf true v = some r ∧
      (r.dataVersion, r.data) ∈ versionHistory buf ∧
      r.dataVersion ≤ v ∧
      (∀ wd ∈ versionHistory buf, wd.1 ≤ v → wd.1 ≤ r.dataVersion) ∧
      (buf.version_id ≤ v → r.non_locking_access = false ∧ r.data = buf.data ∧
        r.dataVersion = buf.version_id) ∧
      (v < buf.version_id →
        r.non_locking_access = true ∧
        ∃ s ∈ buf.snapshots, s.snapshotted_version = r.dataVersion ∧ r.data = s.data ∧
          r.buf.snapshots = bumpSnapshotRefcount buf.snapshots r.dataVersion ∧
          { s with refcount := s.refcount + 1 } ∈ r.buf.snapshots) := by
  by_cases hv : v < buf.version_id
  · have hex : ∃ s ∈ buf.snapshots, s.snapshotted_version ≤ v := by
      rcases hsome with h | h
      · omega
      · exact h
    cases hgs : get_snapshot_data buf.snapshots v with
    | none =>
      obtain ⟨s, hsm, hsv⟩ := hex
      exact absurd hsv (not_le.mpr (get_snapshot_data_none hgs s hsm))
    | some s =>
      obtain ⟨hsmem, hsle⟩ := get_snapshot_data_mem hgs
      have hacq : acquire_block buf true v = some
          { data := s.data, dataVersion := s.snapshotted_version, non_locking_access := true,
            buf := { buf with
                     snapshots := bumpSnapshotRefcount buf.snapshots s.snapshotted_version } } := by
        simp only [acquire_block]
        rw [if_pos ⟨by trivial, hv⟩, hgs]
      refine ⟨_, hacq, ?_, hsle, ?_, ?_, ?_⟩
      · exact List.mem_append_left _ (List.mem_map.mpr ⟨s, hsmem, rfl⟩)
      · intro wd hwd hwdv
        rcases List.mem_append.mp hwd with hh | hh
        · obtain ⟨t, htm, rfl⟩ := List.mem_map.mp hh
          exact get_snapshot_data_is_max hgs t htm hwdv
        · rcases List.mem_singleton.mp hh with rfl
          simp only at hwdv
          omega
      · intro hle; omega
      · intro _
        refine ⟨rfl, s, hsmem, rfl, rfl, rfl, ?_⟩
        refine List.mem_map.mpr ⟨s, hsmem, ?_⟩
        simp
  · have hle : buf.version_id ≤ v := not_lt.mp hv
    have hacq : acquire_block buf true v = some
        { data := buf.data, dataVersion := buf.version_id, non_locking_access := false,
          buf := { buf with refcount := buf.refcount + 1 } } := by
      simp only [acquire_block]
      rw [if_neg (fun hc => hv hc.2)]
    refine ⟨_, hacq, ?_, hle, ?_, fun _ => ⟨rfl, rfl, rfl⟩, fun hvv => absurd hvv hv⟩
    · exact List.mem_append_right _ (List.mem_singleton.mpr rfl)
    · intro wd hwd _
      rcases List.mem_append.mp hwd with hh | hh
      · obtain ⟨t, htm, rfl⟩ := List.mem_map.mp hh
        exact le_of_lt (hwf t htm)
      · rcases List.mem_singleton.mp hh with rfl
        exact le_refl _

/-- Witness for claim C1 at a concrete buffer and snapshot version. -/
theorem snapshotted_acquire_sees_max_version_witness :
    ((∀ s ∈ exampleBuf.snapshots, s.snapshotted_version < exampleBuf.version_id) ∧
      (exampleBuf.version_id ≤ 2 ∨ ∃ s ∈ exampleBuf.snapshots, s.snapshotted_version ≤ 2)) ∧
    (∃ r, acquire_block exampleBuf true 2 = some r ∧
      (r.dataVersion, r.data) ∈ versionHistory exampleBuf ∧
      r.dataVersion ≤ 2 ∧
      (∀ wd ∈ versionHistory exampleBuf, wd.1 ≤ 2 → wd.1 ≤ r.dataVersion) ∧
      (exampleBuf.version_id ≤ 2 → r.non_locking_access = false ∧ r.data = exampleBuf.data ∧
        r.dataVersion = exampleBuf.version_id) ∧
      (2 < exampleBuf.version_id →
        r.non_locking_access = true ∧
        ∃ s ∈ exampleBuf.snapshots, s.snapshotted_version = r.dataVersion ∧ r.data = s.data ∧
          r.buf.snapshots = bumpSnapshotRefcount exampleBuf.snapshots r.dataVersion ∧
          { s with refcount := s.refcount + 1 } ∈ r.buf.snapshots)) :=
  ⟨⟨by decide, by decide⟩,
    snapshotted_acquire_sees_max_version exampleBuf 2 (by decide) (by decide)⟩

/-! ## Theorems: the snapshot-record invariant (claim C7) -/

theorem bufStep_preserves_snapInv {b b' : InnerBuf} (h : BufStep b b') (hI : SnapInv b) :
    SnapInv b' := by
  cases h with
  | cow newData w r hw hr =>
    intro s hs
    simp only [List.mem_append, List.mem_singleton] at hs
    rcases hs with hs | rfl
    · have h1 := (hI s hs).1
      have h2 := (hI s hs).2
      refine ⟨?_, h2⟩
      show s.snapshotted_version < w
      omega
    · exact ⟨hw, hr⟩
  | write newData w hw =>
    intro s hs
    have h1 := (hI s hs).1
    have h2 := (hI s hs).2
    refine ⟨?_, h2⟩
    show s.snapshotted_version < w
    omega
  | acquireSnap v =>
    intro s hs
    simp only [bumpSnapshotRefcount, List.mem_map] at hs
    obtain ⟨t, ht, heq⟩ := hs
    have hIt := hI t ht
    by_cases hveq : t.snapshotted_version = v
    · rw [if_pos hveq] at heq
      cases heq
      refine ⟨hIt.1, ?_⟩
      show 1 ≤ t.refcount + 1
      omega
    · rw [if_neg hveq] at heq
      cases heq
      exact hIt
  | releaseSnap v =>
    intro s hs
    simp only [releaseSnapshotRecord, List.mem_filterMap] at hs
    obtain ⟨t, ht, heq⟩ := hs
    have hIt := hI t ht
    by_cases hveq : t.snapshotted_version = v
    · rw [if_pos hveq] at heq
      by_cases hrc : t.refcount ≤ 1
      · rw [if_pos hrc] at heq; cases heq
      · rw [if_neg hrc] at heq
        cases heq
        refine ⟨hIt.1, ?_⟩
        show 1 ≤ t.refcount - 1
        omega
    · rw [if_neg hveq] at heq
      cases heq
      exact hIt

/-- Claim C7: in every state reachable from a freshly constructed inner
buffer, every snapshot record s satisfies
s.snapshotted_version < version_id and s.refcount ≥ 1. -/
theorem reachable_snapshot_invariant (b0 b : InnerBuf) (h0 : b0.snapshots = [])
    (hr : Relation.ReflTransGen BufStep b0 b) : SnapInv b := by
  induction hr with
  | refl =>
    intro s hs
    rw [h0] at hs
    simp at hs
  | tail _ hstep ih => exact bufStep_preserves_snapInv hstep ih

/-- Witness for claim C7: the invariant evaluated on a concrete buffer one
copy-on-write step away from a fresh buffer. -/
theorem reachable_snapshot_invariant_witness :
    exampleBuf0.snapshots = [] ∧ SnapInv exampleBuf0 :=
  ⟨rfl, reachable_snapshot_invariant exampleBuf0 exampleBuf0 rfl Relation.ReflTransGen.refl⟩

/-- Witness for claim C8 at a concrete evictable buffer. -/
theorem safe_to_unload_of_idle_witness :
    (exampleBuf0.refcount = 0 ∧ exampleBuf0.snapshots = [] ∧ exampleBuf0.dirty = false ∧
      exampleBuf0.lockIdle = true) ∧ safe_to_unload exampleBuf0 = true :=
  ⟨⟨rfl, rfl, rfl, rfl⟩, safe_to_unload_of_idle exampleBuf0 rfl rfl rfl rfl⟩

/-- Witness for claim C6 at a concrete three-entry snapshot map. -/
theorem cache_min_max_snapshot_version_witness :
    StrictKeySorted exampleMap ∧
    ((no_active_snapshots exampleMap = true →
       get_min_snapshot_version exampleMap 0 = 0 ∧ get_max_snapshot_version exampleMap 0 = 0) ∧
     (no_active_snapshots exampleMap = false →
       get_min_snapshot_version exampleMap 0 ∈ exampleMap.map Prod.fst ∧
       (∀ k ∈ exampleMap.map Prod.fst, get_min_snapshot_version exampleMap 0 ≤ k) ∧
       get_max_snapshot_version exampleMap 0 ∈ exampleMap.map Prod.fst ∧
       (∀ k ∈ exampleMap.map Prod.fst, k ≤ get_max_snapshot_version exampleMap 0))) :=
  ⟨by unfold StrictKeySorted; decide,
    cache_min_max_snapshot_version exampleMap 0 (by unfold StrictKeySorted; decide)⟩

/-- Witness for claim C9 at a concrete map and interval. -/
theorem no_active_snapshots_in_range_spec_witness :
    (StrictKeySorted exampleMap ∧ 3 ≤ 4) ∧
    (no_active_snapshots_in_range exampleMap 3 4 = true ↔
      ∀ k ∈ exampleMap.map Prod.fst, ¬(3 ≤ k ∧ k ≤ 4)) :=
  ⟨⟨by unfold StrictKeySorted; decide, by decide⟩,
    no_active_snapshots_in_range_spec exampleMap 3 4 (by unfold StrictKeySorted; decide)
      (by decide)⟩

/-! ## Theorems: scheduler pass closed forms -/

theorem processMsgs_eq {α : Type} (q : Nat) (ms : List α) (c : Nat) :
    processMsgs q ms c = (ms.take q, ms.drop q, c - min q ms.length) := by
  induction ms generalizing q c with
  | nil => cases q <;> simp [processMsgs]
  | cons m ms ih =>
    cases q with
    | zero => simp [processMsgs]
    | succ q =>
      simp only [processMsgs, ih, List.take_succ_cons, List.drop_succ_cons, List.length_cons,
        Prod.mk.injEq]
      refine ⟨?_, ?_, ?_⟩ <;> first | trivial | omega

theorem deliveredAt_append {N : Nat} {α : Type} (p : Fin N) (d1 d2 : List (Fin N × α)) :
    deliveredAt p (d1 ++ d2) = deliveredAt p d1 ++ deliveredAt p d2 := by
  simp [deliveredAt]

theorem deliveredAt_map_mk_self {N : Nat} {α : Type} (p : Fin N) (l : List α) :
    deliveredAt p (l.map fun m => (p, m)) = l := by
  unfold deliveredAt
  rw [List.filter_eq_self.mpr, List.map_map]
  · simp
  · intro a ha
    obtain ⟨m, hm, rfl⟩ := List.mem_map.mp ha
    simp

theorem deliveredAt_map_mk_ne {N : Nat} {α : Type} {p p0 : Fin N} (h : p0 ≠ p) (l : List α) :
    deliveredAt p (l.map fun m => (p0, m)) = [] := by
  unfold deliveredAt
  rw [List.filter_eq_nil_iff.mpr]
  · rfl
  · intro a ha
    obtain ⟨m, hm, rfl⟩ := List.mem_map.mp ha
    simp [h]

theorem passFrom_untouched {N : Nat} {α : Type} (g : Nat) :
    ∀ (k : Nat) (s : HubState N α) (p : Fin N), k ≤ p.val →
      (passFrom g k s).lists p = s.lists p ∧
      (passFrom g k s).initLeft p = s.initLeft p ∧
      deliveredAt p (passFrom g k s).delivered = deliveredAt p s.delivered := by
  intro k
  induction k with
  | zero => intro s p _; exact ⟨rfl, rfl, rfl⟩
  | succ k ih =>
    intro s p hk
    have hkN : k < N := by have := p.isLt; omega
    have hne : (⟨k, hkN⟩ : Fin N) ≠ p := by
      intro he
      have : k = p.val := congrArg Fin.val he
      omega
    simp only [passFrom]
    rw [dif_pos hkN]
    obtain ⟨h1, h2, h3⟩ := ih _ p (by omega)
    refine ⟨?_, ?_, ?_⟩
    · rw [h1]
      exact Function.update_noteq (Ne.symm hne) _ _
    · rw [h2]
      exact Function.update_noteq (Ne.symm hne) _ _
    · rw [h3, deliveredAt_append, deliveredAt_map_mk_ne hne, List.append_nil]

theorem passFrom_processed {N : Nat} {α : Type} (g : Nat) :
    ∀ (k : Nat) (s : HubState N α) (p : Fin N), k ≤ N → p.val < k →
      (passFrom g k s).lists p = (s.lists p).drop (toProcessFromPriority N g p.val) ∧
      (passFrom g k s).initLeft p =
        s.initLeft p - min (toProcessFromPriority N g p.val) (s.lists p).length ∧
      deliveredAt p (passFrom g k s).delivered =
        deliveredAt p s.delivered ++ (s.lists p).take (toProcessFromPriority N g p.val) := by
  intro k
  induction k with
  | zero => intro s p _ hp; exact absurd hp (by omega)
  | succ k ih =>
    intro s p hkN hp
    have hk : k < N := by omega
    simp only [passFrom]
    rw [dif_pos hk]
    by_cases hpk : p.val = k
    · have hpeq : p = (⟨k, hk⟩ : Fin N) := by
        apply Fin.ext
        exact hpk
      subst hpeq
      obtain ⟨h1, h2, h3⟩ :=
        passFrom_untouched g k _ (⟨k, hk⟩ : Fin N) (le_refl k)
      rw [h1, h2, h3]
      simp only [Function.update_same, deliveredAt_append, processMsgs_eq,
        deliveredAt_map_mk_self]
      refine ⟨?_, ?_, ?_⟩ <;> trivial
    · have hne : (⟨k, hk⟩ : Fin N) ≠ p := by
        intro he
        have : k = p.val := congrArg Fin.val he
        omega
      obtain ⟨h1, h2, h3⟩ := ih _ p (by omega) (by omega)
      rw [h1, h2, h3]
      simp only [Function.update_noteq (Ne.symm hne), deliveredAt_append,
        deliveredAt_map_mk_ne hne, List.append_nil]
      refine ⟨?_, ?_, ?_⟩ <;> trivial

theorem schedulerPass_spec {N : Nat} {α : Type} (G : Nat) (s : HubState N α) (p : Fin N) :
    (schedulerPass G s).lists p =
      (s.lists p).drop (toProcessFromPriority N (effectiveGranularity G s.lists) p.val) ∧
    (schedulerPass G s).initLeft p =
      s.initLeft p -
        min (toProcessFromPriority N (effectiveGranularity G s.lists) p.val)
          (s.lists p).length ∧
    deliveredAt p (schedulerPass G s).delivered =
      deliveredAt p s.delivered ++
        (s.lists p).take (toProcessFromPriority N (effectiveGranularity G s.lists) p.val) :=
  passFrom_processed (effectiveGranularity G s.lists) N s p (le_refl N) p.isLt

/-! ## Theorems: the on_event loop (claim C2) -/

theorem take_le_take_append_take {α : Type} (l : List α) (q c : Nat) :
    l.take c <+: l.take q ++ (l.drop q).take (c - min q l.length) := by
  by_cases hcq : c ≤ q
  · exact (List.take_prefix_take_left l hcq).trans (List.prefix_append _ _)
  · push_neg at hcq
    by_cases hql : q ≤ l.length
    · have hmin : min q l.length = q := Nat.min_eq_left hql
      rw [hmin]
      have hsplit : l.take c = l.take q ++ (l.drop q).take (c - q) := by
        rw [← List.take_add]
        congr 1
        omega
      rw [hsplit]
    · push_neg at hql
      have hmin : min q l.length = l.length := by omega
      rw [hmin, List.take_of_length_le (show l.length ≤ c by omega),
        List.take_of_length_le (show l.length ≤ q by omega),
        List.drop_eq_nil_of_le (show l.length ≤ q by omega)]
      simp

theorem hubInv_schedulerPass {N : Nat} {α : Type} (G : Nat) (lists0 : Fin N → List α)
    (s : HubState N α) (hInv : HubInv lists0 s) : HubInv lists0 (schedulerPass G s) := by
  intro p
  obtain ⟨h1, h2, h3⟩ := schedulerPass_spec G s p
  obtain ⟨hle, hpre⟩ := hInv p
  constructor
  · rw [h1, h2, List.length_drop]
    omega
  · rw [h1, h2, h3, List.append_assoc]
    exact hpre.trans ((List.prefix_append_right_inj _).mpr
      (take_le_take_append_take (s.lists p) _ (s.initLeft p)))

theorem hubInv_arrivals {N : Nat} {α : Type} (lists0 a : Fin N → List α) (s : HubState N α)
    (hInv : HubInv lists0 s) :
    HubInv lists0 { s with lists := fun p => s.lists p ++ a p } := by
  intro p
  obtain ⟨hle, hpre⟩ := hInv p
  constructor
  · show s.initLeft p ≤ (s.lists p ++ a p).length
    rw [List.length_append]
    omega
  · show lists0 p <+: deliveredAt p s.delivered ++ (s.lists p ++ a p).take (s.initLeft p)
    rw [List.take_append_of_le_length hle]
    exact hpre

theorem schedulerPass_sum_lt {N : Nat} {α : Type} (G : Nat) (s : HubState N α)
    (hle : ∀ p, s.initLeft p ≤ (s.lists p).length) (p0 : Fin N) (h0 : s.initLeft p0 ≠ 0) :
    Finset.sum Finset.univ (fun p => (schedulerPass G s).initLeft p) <
      Finset.sum Finset.univ fun p => s.initLeft p := by
  apply Finset.sum_lt_sum
  · intro i _
    rw [(schedulerPass_spec G s i).2.1]
    omega
  · refine ⟨p0, Finset.mem_univ _, ?_⟩
    rw [(schedulerPass_spec G s p0).2.1]
    have h1 := hle p0
    have hq : 1 ≤ toProcessFromPriority N (effectiveGranularity G s.lists) p0.val :=
      le_max_left 1 _
    omega

theorem on_event_loop_spec {N : Nat} {α : Type} (G : Nat) (arrivals : Nat → Fin N → List α)
    (lists0 : Fin N → List α) :
    ∀ (fuel n : Nat) (s : HubState N α), HubInv lists0 s →
      Finset.sum Finset.univ (fun p => s.initLeft p) < fuel →
      (∀ p, (on_event_loop G arrivals fuel n s).initLeft p = 0) ∧
      (∀ p, lists0 p <+: deliveredAt p (on_event_loop G arrivals fuel n s).delivered) := by
  intro fuel
  induction fuel with
  | zero => intro n s _ hf; exact absurd hf (Nat.not_lt_zero _)
  | succ fuel ih =>
    intro n s hInv hf
    have hInv' := hubInv_schedulerPass G lists0 s hInv
    by_cases hz : ∀ p, (schedulerPass G s).initLeft p = 0
    · simp only [on_event_loop]
      rw [if_pos hz]
      refine ⟨hz, fun p => ?_⟩
      obtain ⟨hle2, hpre2⟩ := hInv' p
      rw [hz p, List.take_zero, List.append_nil] at hpre2
      exact hpre2
    · simp only [on_event_loop]
      rw [if_neg hz]
      push_neg at hz
      obtain ⟨p0, hp0⟩ := hz
      have h00 : s.initLeft p0 ≠ 0 := by
        have := (schedulerPass_spec G s p0).2.1
        intro hc
        rw [hc] at this
        simp at this
        exact hp0 this
      have hsum := schedulerPass_sum_lt G s (fun p => (hInv p).1) p0 h00
      apply ih (n + 1) _ (hubInv_arrivals lists0 (arrivals n) _ hInv')
      show Finset.sum Finset.univ (fun p => (schedulerPass G s).initLeft p) < fuel
      omega

/-- Claim C2: every message present in the hub's priority lists at the
start of the initial pass of on_event is delivered (in FIFO order per
priority) before on_event returns, and the processing loop does not stop
while any num_initial_msgs_left_to_process counter is nonzero: with a pass
budget exceeding the initial message count, on_event returns with every
counter zero and with every initial list a prefix of what was delivered
from its priority. -/
theorem on_event_delivers_initial_batch {N : Nat} {α : Type} (G fuel : Nat)
    (arrivals : Nat → Fin N → List α) (lists0 : Fin N → List α)
    (hfuel : totalPendingMsgs lists0 < fuel) :
    (∀ p, (on_event G arrivals fuel lists0).initLeft p = 0) ∧
    (∀ p, lists0 p <+: deliveredAt p (on_event G arrivals fuel lists0).delivered) := by
  apply on_event_loop_spec G arrivals lists0 fuel 0
  · intro p
    constructor
    · exact le_refl _
    · show lists0 p <+: deliveredAt p [] ++ (lists0 p).take (lists0 p).length
      rw [List.take_length]
      exact List.prefix_rfl
  · exact hfuel

/-- Witness for claim C2 on a concrete three-priority hub with seven
initial messages and no later arrivals. -/
theorem on_event_delivers_initial_batch_witness :
    totalPendingMsgs exampleLists < 9 ∧
    ((∀ p, (on_event 64 (fun _ _ => []) 9 exampleLists).initLeft p = 0) ∧
     (∀ p, exampleLists p <+:
        deliveredAt p (on_event 64 (fun _ _ => []) 9 exampleLists).delivered)) :=
  ⟨by decide, on_event_delivers_initial_batch 64 9 (fun _ _ => []) exampleLists (by decide)⟩

/-! ## Theorems: FIFO delivery and ordered messages (claim C4) -/

theorem schedulerPass_conservation {N : Nat} {α : Type} (G : Nat) (s : HubState N α)
    (p : Fin N) :
    deliveredAt p (schedulerPass G s).delivered ++ (schedulerPass G s).lists p =
      deliveredAt p s.delivered ++ s.lists p := by
  obtain ⟨h1, _, h3⟩ := schedulerPass_spec G s p
  rw [h1, h3, List.append_assoc, List.take_append_drop]

theorem on_event_loop_conservation {N : Nat} {α : Type} (G : Nat)
    (arrivals : Nat → Fin N → List α) :
    ∀ (fuel n : Nat) (s : HubState N α), ∃ j, ∀ p,
      deliveredAt p (on_event_loop G arrivals fuel n s).delivered ++
        (on_event_loop G arrivals fuel n s).lists p =
      deliveredAt p s.delivered ++ s.lists p ++ consumedBatches arrivals p n j := by
  intro fuel
  induction fuel with
  | zero =>
    intro n s
    refine ⟨0, fun p => ?_⟩
    show deliveredAt p s.delivered ++ s.lists p =
      deliveredAt p s.delivered ++ s.lists p ++ consumedBatches arrivals p n 0
    rw [show consumedBatches arrivals p n 0 = [] from rfl, List.append_nil]
  | succ fuel ih =>
    intro n s
    by_cases hz : ∀ p, (schedulerPass G s).initLeft p = 0
    · refine ⟨0, fun p => ?_⟩
      simp only [on_event_loop]
      rw [if_pos hz, schedulerPass_conservation,
        show consumedBatches arrivals p n 0 = [] from rfl, List.append_nil]
    · obtain ⟨j, hj⟩ := ih (n + 1)
        { schedulerPass G s with
          lists := fun p => (schedulerPass G s).lists p ++ arrivals n p }
      refine ⟨j + 1, fun p => ?_⟩
      simp only [on_event_loop]
      rw [if_neg hz, hj p]
      show deliveredAt p (schedulerPass G s).delivered ++
          ((schedulerPass G s).lists p ++ arrivals n p) ++
          consumedBatches arrivals p (n + 1) j =
        deliveredAt p s.delivered ++ s.lists p ++ consumedBatches arrivals p n (j + 1)
      rw [show consumedBatches arrivals p n (j + 1) =
          arrivals n p ++ consumedBatches arrivals p (n + 1) j from rfl]
      rw [← List.append_assoc, schedulerPass_conservation]
      simp [List.append_assoc]

theorem store_ordered_foldl {N : Nat} (q : List (LinuxThreadMessage N)) :
    ∀ acc, q.foldl (fun l m => store_message_ordered m l) acc =
      acc ++ q.map fun m => { m with is_ordered := true } := by
  induction q with
  | nil => intro acc; simp
  | cons m rest ih =>
    intro acc
    simp only [List.foldl_cons, List.map_cons]
    rw [ih]
    simp [store_message_ordered, List.append_assoc]

theorem sort_incoming_spec {N : Nat} (orderedP : Fin N) :
    ∀ (incoming : List (LinuxThreadMessage N))
      (lists : Fin N → List (LinuxThreadMessage N)) (p : Fin N),
      sort_incoming_messages_by_priority orderedP incoming lists p =
        lists p ++
          (incoming.filter fun m => effective_priority orderedP m == p).map clearOrdered := by
  intro incoming
  induction incoming with
  | nil => intro lists p; simp [sort_incoming_messages_by_priority]
  | cons m rest ih =>
    intro lists p
    show sort_incoming_messages_by_priority orderedP rest
        (Function.update lists (effective_priority orderedP m)
          (lists (effective_priority orderedP m) ++ [clearOrdered m])) p = _
    rw [ih]
    by_cases h : effective_priority orderedP m = p
    · subst h
      rw [Function.update_same, List.filter_cons_of_pos (by simp)]
      simp [List.append_assoc]
    · rw [Function.update_noteq (Ne.symm h), List.filter_cons_of_neg (by simp [h])]

/-- Claim C4: messages enqueued via store_message_ordered to a thread are
pinned by sort_incoming_messages_by_priority to the single reserved
ordered priority, ignoring their own priority field, and on_event delivers
that single FIFO list in enqueue order: the sequence delivered from the
ordered priority is a prefix of the enqueue sequence (followed by any
later arrival batches), so for any m1 enqueued before m2, m1 is delivered
before m2 and no ordered message bypasses another. -/
theorem store_message_ordered_fifo {N : Nat} (orderedP : Fin N) (G fuel : Nat)
    (arrivals : Nat → Fin N → List (LinuxThreadMessage N))
    (q : List (LinuxThreadMessage N)) :
    (∀ m : LinuxThreadMessage N,
      effective_priority orderedP { m with is_ordered := true } = orderedP) ∧
    sort_incoming_messages_by_priority orderedP
        (q.foldl (fun l m => store_message_ordered m l) []) (fun _ => []) orderedP =
      q.map clearOrdered ∧
    (∃ j, deliveredAt orderedP
        (on_event G arrivals fuel
          (sort_incoming_messages_by_priority orderedP
            (q.foldl (fun l m => store_message_ordered m l) [])
            (fun _ => []))).delivered <+:
      q.map clearOrdered ++ consumedBatches arrivals orderedP 0 j) := by
  have hpin : ∀ m : LinuxThreadMessage N,
      effective_priority orderedP { m with is_ordered := true } = orderedP := by
    intro m
    simp [effective_priority]
  have hsortP : sort_incoming_messages_by_priority orderedP
      (q.foldl (fun l m => store_message_ordered m l) []) (fun _ => []) orderedP =
      q.map clearOrdered := by
    rw [store_ordered_foldl, sort_incoming_spec]
    simp only [List.nil_append]
    rw [List.filter_eq_self.mpr, List.map_map]
    · rfl
    · intro a ha
      obtain ⟨mm, hm, rfl⟩ := List.mem_map.mp ha
      simp [hpin mm]
  refine ⟨hpin, hsortP, ?_⟩
  obtain ⟨j, hj⟩ := on_event_loop_conservation G arrivals fuel 0
    { lists := sort_incoming_messages_by_priority orderedP
        (q.foldl (fun l m => store_message_ordered m l) []) (fun _ => [])
      initLeft := fun p => ((sort_incoming_messages_by_priority orderedP
        (q.foldl (fun l m => store_message_ordered m l) []) (fun _ => [])) p).length
      delivered := [] }
  refine ⟨j, ?_⟩
  have h1 := hj orderedP
  refine ⟨(on_event G arrivals fuel
      (sort_incoming_messages_by_priority orderedP
        (q.foldl (fun l m => store_message_ordered m l) []) (fun _ => []))).lists orderedP,
    ?_⟩
  rw [show on_event G arrivals fuel
      (sort_incoming_messages_by_priority orderedP
        (q.foldl (fun l m => store_message_ordered m l) []) (fun _ => [])) =
      on_event_loop G arrivals fuel 0
        { lists := sort_incoming_messages_by_priority orderedP
            (q.foldl (fun l m => store_message_ordered m l) []) (fun _ => [])
          initLeft := fun p => ((sort_incoming_messages_by_priority orderedP
            (q.foldl (fun l m => store_message_ordered m l) []) (fun _ => [])) p).length
          delivered := [] } from rfl]
  rw [h1]
  show deliveredAt orderedP ([] : List (Fin N × LinuxThreadMessage N)) ++
      sort_incoming_messages_by_priority orderedP
        (q.foldl (fun l m => store_message_ordered m l) []) (fun _ => []) orderedP ++
      consumedBatches arrivals orderedP 0 j =
    q.map clearOrdered ++ consumedBatches arrivals orderedP 0 j
  rw [hsortP]
  rfl

/-! ## Theorems: per-pass quotas (claims C3 and C10) -/

theorem shiftRight_le_shiftRight_of_le (g : Nat) {a b : Nat} (h : a ≤ b) :
    g >>> b ≤ g >>> a := by
  rw [Nat.shiftRight_eq_div_pow, Nat.shiftRight_eq_div_pow]
  exact Nat.div_le_div_left (Nat.pow_le_pow_right (by omega) h) (Nat.two_pow_pos a)

theorem quota_upper {x d : Nat} (hd : 1 ≤ d) :
    max 1 x < 2 ^ d * (max 1 (x >>> d) + 1) := by
  have h1 : x >>> d = x / 2 ^ d := Nat.shiftRight_eq_div_pow x d
  have h2 : x < 2 ^ d * (x / 2 ^ d + 1) := by
    have hdm := Nat.div_add_mod x (2 ^ d)
    have hml := Nat.mod_lt x (Nat.two_pow_pos d)
    rw [Nat.mul_succ]
    omega
  have h3 : 2 ≤ 2 ^ d := by
    calc 2 = 2 ^ 1 := (pow_one 2).symm
    _ ≤ 2 ^ d := Nat.pow_le_pow_right (by omega) hd
  rw [h1]
  rcases Nat.lt_or_ge x 1 with h0 | h0
  · have hx0 : x = 0 := by omega
    subst hx0
    have h4 : 2 * 2 ≤ 2 ^ d * 2 := Nat.mul_le_mul_right 2 h3
    have h5 : max 1 (0 / 2 ^ d) + 1 = 2 := by simp
    rw [h5]
    simp only [Nat.max_zero]
    omega
  · have hmx : max 1 x = x := max_eq_right h0
    rw [hmx]
    have h4 : 2 ^ d * (x / 2 ^ d + 1) ≤ 2 ^ d * (max 1 (x / 2 ^ d) + 1) :=
      Nat.mul_le_mul_left _ (by have := le_max_right 1 (x / 2 ^ d); omega)
    omega

/-- Claim C3 (amended): in every scheduling pass of on_event the messages
processed at priority p are the first elements of its list up to the quota
max(1, effective_granularity >> (MAX - p)), so their number is bounded by
that quota; quotas are monotone in the priority and exponential up to
rounding: for q < p, quota q ≤ quota p < 2^(p-q) * (quota q + 1).  The
original claim's exact ratio quota p = 2^(p-q) * quota q fails because the
right shift discards low bits (see the counterexample). -/
theorem scheduler_pass_quota {N : Nat} {α : Type} (G : Nat) (s : HubState N α)
    (p : Fin N) :
    deliveredAt p (schedulerPass G s).delivered =
      deliveredAt p s.delivered ++
        (s.lists p).take (toProcessFromPriority N (effectiveGranularity G s.lists) p.val) ∧
    (deliveredAt p (schedulerPass G s).delivered).length ≤
      (deliveredAt p s.delivered).length +
        toProcessFromPriority N (effectiveGranularity G s.lists) p.val ∧
    (∀ g pk qk : Nat, qk < pk → pk < N →
      toProcessFromPriority N g qk ≤ toProcessFromPriority N g pk ∧
      toProcessFromPriority N g pk <
        2 ^ (pk - qk) * (toProcessFromPriority N g qk + 1)) := by
  obtain ⟨h1, h2, h3⟩ := schedulerPass_spec G s p
  refine ⟨h3, ?_, ?_⟩
  · rw [h3, List.length_append]
    have := List.length_take_le
      (toProcessFromPriority N (effectiveGranularity G s.lists) p.val) (s.lists p)
    omega
  · intro g pk qk hqp hpN
    constructor
    · unfold toProcessFromPriority
      exact max_le_max (le_refl 1) (shiftRight_le_shiftRight_of_le g (by omega))
    · have hb : N - 1 - qk = (N - 1 - pk) + (pk - qk) := by omega
      unfold toProcessFromPriority
      rw [hb, Nat.shiftRight_add]
      exact quota_upper (by omega)

/-- Claim C3 counterexample: with three priority levels, seven pending
messages and granularity 64, the effective granularity is 7, the quota at
the top priority (index 2) is max(1, 7 >> 0) = 7 and the quota one level
below (index 1) is max(1, 7 >> 1) = 3; the claimed exact ratio
2^(2-1) * 3 = 6 differs from 7, and neither quota sits at the floor 1. -/
theorem scheduler_quota_exact_ratio_counterexample :
    toProcessFromPriority 3 (effectiveGranularity 64 exampleLists) 2 = 7 ∧
    toProcessFromPriority 3 (effectiveGranularity 64 exampleLists) 1 = 3 ∧
    ¬(toProcessFromPriority 3 (effectiveGranularity 64 exampleLists) 2 =
        2 ^ (2 - 1) * toProcessFromPriority 3 (effectiveGranularity 64 exampleLists) 1) := by
  decide

/-- Witness for claim C3 applying the amended quota relation at concrete
priorities 2 and 1 with effective granularity 7. -/
theorem scheduler_pass_quota_witness :
    toProcessFromPriority 3 7 1 ≤ toProcessFromPriority 3 7 2 ∧
    toProcessFromPriority 3 7 2 < 2 ^ (2 - 1) * (toProcessFromPriority 3 7 1 + 1) :=
  (scheduler_pass_quota 64 exampleHub (2 : Fin 3)).2.2 7 2 1 (by decide) (by decide)

/-- Claim C10: the per-priority quota of on_event is at least one at every
priority level, even when the shifted granularity is zero, so in any
scheduling pass a nonempty priority list at any level, however low, has at
least one message processed: initial low-priority messages cannot be
skipped by a pass. -/
theorem quota_floor_one_no_starvation {N : Nat} {α : Type} (G : Nat)
    (s : HubState N α) (p : Fin N) (hne : s.lists p ≠ []) :
    (∀ n g k : Nat, 1 ≤ toProcessFromPriority n g k) ∧
    (deliveredAt p s.delivered).length <
      (deliveredAt p (schedulerPass G s).delivered).length := by
  refine ⟨fun n g k => le_max_left 1 _, ?_⟩
  obtain ⟨-, -, h3⟩ := schedulerPass_spec G s p
  rw [h3, List.length_append, List.length_take]
  have h1 : 1 ≤ toProcessFromPriority N (effectiveGranularity G s.lists) p.val :=
    le_max_left 1 _
  have h2 : 1 ≤ (s.lists p).length := by
    cases hll : s.lists p with
    | nil => exact absurd hll hne
    | cons a l => simp
  omega

/-- Witness for claim C10 on the concrete hub state, at the middle
priority whose list is nonempty. -/
theorem quota_floor_one_no_starvation_witness :
    exampleHub.lists (1 : Fin 3) ≠ [] ∧
    ((∀ n g k : Nat, 1 ≤ toProcessFromPriority n g k) ∧
     (deliveredAt (1 : Fin 3) exampleHub.delivered).length <
       (deliveredAt (1 : Fin 3) (schedulerPass 64 exampleHub).delivered).length) :=
  ⟨by decide, quota_floor_one_no_starvation 64 exampleHub (1 : Fin 3) (by decide)⟩
